import Mathlib

/-!
# Verification of the PC3 similarity-accumulation engine

Shallow embedding, in Lean 4, of the similarity pipeline of the PC3
repository (`cmd/concurrent/{jaccard,cosine,pearson}_concurrent.go`,
`cmd/algorithms/{jaccard,cosine,pearson}.go`).

Modelling conventions:

* Go `int` values (user ids, item ids, percentages, counters) are `ℤ` or `ℕ`;
  Go `uint32` arithmetic is `ℕ` with explicit reduction `% 2^32`.
* Go `float64` arithmetic is modelled exactly over `ℚ`.  All inputs are finite
  decimals, so the accumulated sums are exact rationals; `math.Sqrt` is
  modelled by `ratSqrt`, which agrees with the real square root on
  perfect-square rationals — the only values at which any theorem below
  evaluates it.  In exact arithmetic a quotient with a non-zero denominator is
  always finite, so the source's `IsNaN`/`IsInf` guards are identically true
  at the guarded points and are noted where they occur.
* Go maps are modelled as association lists in insertion order.  Go's map
  iteration order is unspecified (and randomised), so every statement that
  depends on an enumeration order is quantified over an arbitrary permutation
  of the keys; `sort.Slice` (which is *not* a stable sort, and is fed input in
  map iteration order) is modelled by the relation `topKRel`, which relates an
  input candidate list to any `k`-prefix of any score-sorted permutation.
* Sharding (`numShards`, per-shard mutexes) partitions the accumulator by key;
  it does not change which key holds which statistics, so the accumulator is
  modelled as a single map.
-/

namespace PC3

/-! ## Deterministic sampler (`hash32` / `keepByPct`)

Source: `cmd/concurrent/jaccard_concurrent.go` lines 98-116 (the same two
functions are repeated verbatim in every other variant). -/

/-- One FNV-1a step on a 32-bit accumulator: `h ^= b; h *= 16777619`
with `uint32` wrap-around. -/
def fnvStep (h b : ℕ) : ℕ := ((h ^^^ b) * 16777619) % 2 ^ 32

/-- `hash32` from the source: the 32-bit FNV-1a hash of the four
little-endian bytes of `uint32(x)`.  `uint32(x)` for a Go `int` is the
truncation `x mod 2^32`. -/
def hash32 (x : ℤ) : ℕ :=
  let v := (x % (2 ^ 32 : ℤ)).toNat
  let h0 := fnvStep 2166136261 (v % 256)
  let h1 := fnvStep h0 ((v >>> 8) % 256)
  let h2 := fnvStep h1 ((v >>> 16) % 256)
  fnvStep h2 ((v >>> 24) % 256)

/-- `keepByPct` from the source:
`pct >= 100` admits, `pct <= 0` rejects, otherwise admit iff
`int(hash32(id) % 100) < pct`. -/
def keepByPct (id pct : ℤ) : Bool :=
  if pct ≥ 100 then true
  else if pct ≤ 0 then false
  else decide (((hash32 id % 100 : ℕ) : ℤ) < pct)

/-! ## Common data model -/

/-- A scored neighbor candidate: the `kv{j, s}` struct of the source. -/
structure Cand where
  j : ℤ
  s : ℚ
deriving DecidableEq

/-- One parsed line of the triplet CSV `ratings_ui.csv`: `(uIdx, iIdx, rating)`. -/
structure Triplet where
  u : ℤ
  i : ℤ
  r : ℚ
deriving DecidableEq

/-- All ordered position pairs `(a, b)` with `a` strictly before `b`: the
`for a; for b := a+1` double loop every accumulator runs over a basket. -/
def pairsOf {α : Type} : List α → List (α × α)
  | [] => []
  | x :: xs => xs.map (fun y => (x, y)) ++ pairsOf xs

/-- Insertion-ordered association-list update: apply `f` to the entry at `k`,
inserting `f v0` when absent.  This is the content of the Go idiom
`t := m[k]; if t == nil { t = &zero; m[k] = t }; mutate(t)`. -/
def alUpdate {K V : Type} [DecidableEq K] (k : K) (f : V → V) (v0 : V) :
    List (K × V) → List (K × V)
  | [] => [(k, f v0)]
  | e :: rest => if e.1 = k then (k, f e.2) :: rest else e :: alUpdate k f v0 rest

/-! ## Jaccard, item-based, concurrent (`cmd/concurrent/jaccard_concurrent.go`)

The sharded accumulator `s.m : map[i]map[j]*accJ` keyed through
`shardIndex(hash of the canonical pair)` is modelled as one association list
keyed by the canonical pair `(i, j)`; the shard a key lives in does not
affect which statistics it holds. -/

/-- Canonicalisation from `updatePair`: `if ia > ib { ia, ib = ib, ia }`. -/
def canonPair (ia ib : ℤ) : ℤ × ℤ := if ia > ib then (ib, ia) else (ia, ib)

/-- `updatePair` of the concurrent Jaccard: skip the diagonal, canonicalise,
then `t.inter++`. -/
def updatePairJ (m : List ((ℤ × ℤ) × ℕ)) (ia ib : ℤ) : List ((ℤ × ℤ) × ℕ) :=
  if ia = ib then m else alUpdate (canonPair ia ib) (· + 1) 0 m

/-- Worker loop body: enumerate all position pairs of one basket. -/
def accumBasketJ (m : List ((ℤ × ℤ) × ℕ)) (basket : List ℤ) : List ((ℤ × ℤ) × ℕ) :=
  (pairsOf basket).foldl (fun acc p => updatePairJ acc p.1 p.2) m

/-- The whole accumulation phase over the basket stream. -/
def accumJ (baskets : List (List ℤ)) : List ((ℤ × ℤ) × ℕ) :=
  baskets.foldl accumBasketJ []

/-- `itemCount` (PASO 1 of the concurrent Jaccard): one pass over the CSV
counting, per item, the sampled triplets that mention it. -/
def itemCount (pu pi : ℤ) (rows : List Triplet) (i : ℤ) : ℕ :=
  match rows with
  | [] => 0
  | t :: rest =>
    (if keepByPct t.u pu ∧ keepByPct t.i pi ∧ t.i = i then 1 else 0)
      + itemCount pu pi rest i

/-- The triplet-reading loop of the concurrent Jaccard (PASO 2): group the
item ids of consecutive rows of one user into a basket, applying the
sampling filters; `lastU = -1` is the source's initial sentinel.  `emitUser`
drops empty baskets. -/
def jacBasketsLoop (pu pi : ℤ) : List Triplet → ℤ → List ℤ → List (List ℤ)
  | [], _, basket => if basket.isEmpty then [] else [basket]
  | t :: rest, lastU, basket =>
    if keepByPct t.u pu && keepByPct t.i pi then
      if lastU = -1 then jacBasketsLoop pu pi rest t.u (basket ++ [t.i])
      else if t.u ≠ lastU then
        if basket.isEmpty then jacBasketsLoop pu pi rest t.u [t.i]
        else basket :: jacBasketsLoop pu pi rest t.u [t.i]
      else jacBasketsLoop pu pi rest lastU (basket ++ [t.i])
    else
      if lastU ≠ -1 ∧ t.u ≠ lastU then
        if basket.isEmpty then jacBasketsLoop pu pi rest t.u basket
        else basket :: jacBasketsLoop pu pi rest t.u []
      else jacBasketsLoop pu pi rest lastU basket

/-- Baskets produced from the triplet file by the concurrent Jaccard. -/
def jacBaskets (pu pi : ℤ) (rows : List Triplet) : List (List ℤ) :=
  jacBasketsLoop pu pi rows (-1) []

/-- The shrinkage step shared by the Jaccard scorer
(`if shrink > 0 { sim *= inter / (inter + shrink) }`) and the shrinkage
variant of the concurrent cosine scorer. -/
def applyShrink (sim : ℚ) (inter shrink : ℕ) : ℚ :=
  if 0 < shrink then sim * ((inter : ℚ) / ((inter : ℚ) + (shrink : ℚ))) else sim

/-- The per-pair filter-and-score of PASO 3 of the concurrent Jaccard, for a
pair with intersection `inter`, outer degree `cI` and inner degree `cJ`:
reject if `inter < minCo`, if `cJ = 0`, if the union is non-positive or if
the similarity is non-positive; otherwise apply shrinkage. -/
def jacScorePair (minCo shrink : ℕ) (cI cJ : ℕ) (inter : ℕ) : Option ℚ :=
  if inter < minCo then none
  else if cJ = 0 then none
  else if ((cI : ℤ) + (cJ : ℤ) - (inter : ℤ)) ≤ 0 then none
  else if (inter : ℚ) / (((cI : ℤ) + (cJ : ℤ) - (inter : ℤ) : ℤ) : ℚ) ≤ 0 then none
  else some (applyShrink ((inter : ℚ) / (((cI : ℤ) + (cJ : ℤ) - (inter : ℤ) : ℤ) : ℚ)) inter shrink)

/-- The candidate list the PASO 3 inner loop builds for outer key `i` from
*one shard's* map (`countI == 0` skips the whole key; the shard's entries
with outer key `i` are scanned in accumulator order). -/
def jacCandsFor (minCo shrink : ℕ) (cnt : ℤ → ℕ) (m : List ((ℤ × ℤ) × ℕ))
    (i : ℤ) : List Cand :=
  if cnt i = 0 then []
  else m.filterMap (fun e =>
    if e.1.1 = i then (jacScorePair minCo shrink (cnt i) (cnt e.1.2) e.2).map (Cand.mk e.1.2)
    else none)

/-- `shardIndex` of the concurrent Jaccard: canonicalise, then
`hash32(i*73856093 ^ j*19349663) & (numShards-1)` with `numShards = 64`.
The Go `int` products and xor are 64-bit two's complement, and `hash32`
reads only the low 32 bits; the low 32 bits of an int64 xor are the xor of
the low 32 bits, so the model xors the mod-`2^32` residues (`& 63` is
`% 64`). -/
def shardIndexJ (ia ib : ℤ) : ℕ :=
  hash32 ((((((if ia > ib then ib else ia) * 73856093) % 2 ^ 32).toNat
    ^^^ (((if ia > ib then ia else ib) * 19349663) % 2 ^ 32).toNat : ℕ) : ℤ)) % 64

/-- The map held by shard `s`: `updatePair` routes each canonical pair to
`shards[shardIndex(i, j)]`, so shard `s` holds exactly the accumulator
entries whose key hashes to `s`, in insertion order. -/
def shardMapJ (acc : List ((ℤ × ℤ) × ℕ)) (s : ℕ) : List ((ℤ × ℤ) × ℕ) :=
  acc.filter (fun e => shardIndexJ e.1.1 e.1.2 = s)

/-- PASO 3 of `runItemBasedJaccardConcurrent`, at candidate level: shards
are scanned in array order 0..63 and each key's candidate list is written
with a plain `out[i] = cands` assignment (guarded only by
`len(cands) == 0`), so when an outer key's pairs are spread over several
shards, the *last* shard in scan order with surviving candidates for that
key overwrites all earlier ones.  (The `topK` truncation applied to the
winning list is modelled by `topKRel`.) -/
def jacOutShardedFor (minCo shrink : ℕ) (cnt : ℤ → ℕ)
    (acc : List ((ℤ × ℤ) × ℕ)) (i : ℤ) : List Cand :=
  (List.range 64).foldl
    (fun out s =>
      if (jacCandsFor minCo shrink cnt (shardMapJ acc s) i).isEmpty then out
      else jacCandsFor minCo shrink cnt (shardMapJ acc s) i)
    []

/-- The full candidate-level pipeline of `runItemBasedJaccardConcurrent`:
degree pass, basket grouping, sharded pair accumulation, then the
per-shard scoring scan with its overwriting `out[i] = cands` assignment. -/
def jacOutSharded (minCo shrink : ℕ) (pu pi : ℤ) (rows : List Triplet)
    (i : ℤ) : List Cand :=
  jacOutShardedFor minCo shrink (itemCount pu pi rows)
    (accumJ (jacBaskets pu pi rows)) i

/-! ## Top-K selection (`topK` / `topMerge`)

Every variant selects with
`sort.Slice(list, func(a, b) { return list[a].s > list[b].s }); list[:k]`.
`sort.Slice` is explicitly *not* stable, its comparator looks only at the
score, and the list it is handed was produced by a Go map iteration whose
order is unspecified.  The faithful embedding is therefore a relation: the
retained list is some `k`-prefix of some score-descending permutation of the
candidates. -/

/-- Sorted by non-increasing score - the postcondition of
`sort.Slice(list, s-descending)`. -/
def scoreSorted (l : List Cand) : Prop :=
  l.Chain' (fun x y => y.s ≤ x.s)

instance : DecidablePred scoreSorted := fun l =>
  inferInstanceAs (Decidable (l.Chain' _))

/-- `topK input k` may return `output` iff `output` is the `k`-prefix of a
score-descending permutation of `input`. -/
def topKRel (input output : List Cand) (k : ℕ) : Prop :=
  ∃ p : List Cand, input.Perm p ∧ scoreSorted p ∧ output = p.take k

instance : IsTrans Cand (fun x y => y.s ≤ x.s) :=
  ⟨fun _ _ _ h1 h2 => le_trans h2 h1⟩

/-- The ordering the specification claims for a retained row: strictly
descending score, with exact ties broken by ascending neighbor id. -/
def specOrdered (l : List Cand) : Prop :=
  l.Chain' (fun x y => y.s < x.s ∨ (y.s = x.s ∧ x.j < y.j))

instance : DecidablePred specOrdered := fun l =>
  inferInstanceAs (Decidable (l.Chain' _))

/-! ## Neighbor CSV writer

Every variant writes with `for i, list := range out { for _, p := range list
{ write(i, p.j, p.s) } }` - rows of one key are contiguous, in list order,
and the keys appear in Go map iteration order, modelled here as an explicit
`order` argument ranging over permutations of the key set. -/

/-- The rows of the output CSV (after the header), for key enumeration
`order`. -/
def rowsOf (order : List ℤ) (out : ℤ → List Cand) : List (ℤ × ℤ × ℚ) :=
  order.flatMap (fun i => (out i).map (fun c => (i, c.j, c.s)))

/-! ## Exact square root

`math.Sqrt` on `float64`, modelled exactly: `ratSqrt` returns the square
root of a non-negative rational whose numerator and denominator are perfect
squares, which covers every value a theorem below evaluates it at. -/

def ratSqrt (q : ℚ) : ℚ :=
  (Nat.sqrt q.num.toNat : ℚ) / (Nat.sqrt q.den : ℚ)

/-! ## Cosine, user-based, concurrent (`cmd/concurrent/cosine_concurrent.go`)

The worker of `runUserBasedCosineConcurrent` walks the user list of each
item and accumulates `dot`, `n2a`, `n2b`, `c` for each position pair
`(ua, ub)`; per-worker maps merged at the end hold, per key, the same exact
sums as one map over all baskets, which is what `accumC` builds. -/

/-- `acc` of the concurrent cosine. -/
structure AccC where
  dot : ℚ
  n2a : ℚ
  n2b : ℚ
  c : ℕ
deriving DecidableEq

/-- One pair update of the user-based cosine worker. -/
def updatePairC (m : List ((ℤ × ℤ) × AccC)) (ua ub : ℤ) (xa xb : ℚ) :
    List ((ℤ × ℤ) × AccC) :=
  alUpdate (ua, ub)
    (fun t => ⟨t.dot + xa * xb, t.n2a + xa * xa, t.n2b + xb * xb, t.c + 1⟩)
    ⟨0, 0, 0, 0⟩ m

/-- Accumulation over the `itemUsers` baskets: each basket is the
`[(u, r')]` list of one item. -/
def accumC (baskets : List (List (ℤ × ℚ))) : List ((ℤ × ℤ) × AccC) :=
  baskets.foldl
    (fun m basket =>
      (pairsOf basket).foldl
        (fun acc p => updatePairC acc p.1.1 p.2.1 p.1.2 p.2.2) m)
    []

/-- The per-entry filter-and-score of the user-based cosine Top-K loop:
reject if `c < minCo`, `n2a == 0` or `n2b == 0`, then keep
`dot / (sqrt(n2a) * sqrt(n2b))` unless it is NaN or Inf.  With non-zero
norms the exact quotient is always finite, so the NaN/Inf guard passes;
there is no sign test. -/
def cosineScoreEntry (minCo : ℕ) (t : AccC) : Option ℚ :=
  if t.c < minCo ∨ t.n2a = 0 ∨ t.n2b = 0 then none
  else some (t.dot / (ratSqrt t.n2a * ratSqrt t.n2b))

/-- Candidate list of the user-based cosine scorer for outer key `u`. -/
def cosineCandsFor (minCo : ℕ) (m : List ((ℤ × ℤ) × AccC)) (u : ℤ) :
    List Cand :=
  m.filterMap (fun e =>
    if e.1.1 = u then (cosineScoreEntry minCo e.2).map (Cand.mk e.1.2) else none)

/-- The per-entry filter of the *optimized* item-based concurrent cosine
scorer (the shrinkage variant): with `normI`, `normJ` the square roots of
the two precomputed norms (`normI == 0` skips the whole key, `normJ == 0`
the entry), reject `c < minCo`, then reject `sim <= 0`, then apply
shrinkage; the trailing NaN/Inf guard passes in exact arithmetic. -/
def cosineShrinkScoreEntry (minCo shrink : ℕ) (normI normJ : ℚ) (dot : ℚ)
    (c : ℕ) : Option ℚ :=
  if c < minCo then none
  else if normJ = 0 then none
  else if dot / (normI * normJ) ≤ 0 then none
  else some (applyShrink (dot / (normI * normJ)) c shrink)

/-! ## Pearson, item-based, concurrent (`cmd/concurrent/pearson_concurrent.go`) -/

/-- `accIC` of the concurrent item-based Pearson. -/
structure AccP where
  sumX : ℚ
  sumY : ℚ
  sumX2 : ℚ
  sumY2 : ℚ
  sumXY : ℚ
  n : ℕ
deriving DecidableEq

/-- One pair update of the item-based Pearson worker (keys are positional:
`(items[a].i, items[b].i)` with `a < b`, no id canonicalisation). -/
def updatePairP (m : List ((ℤ × ℤ) × AccP)) (ia ib : ℤ) (ra rb : ℚ) :
    List ((ℤ × ℤ) × AccP) :=
  alUpdate (ia, ib)
    (fun t => ⟨t.sumX + ra, t.sumY + rb, t.sumX2 + ra * ra, t.sumY2 + rb * rb,
               t.sumXY + ra * rb, t.n + 1⟩)
    ⟨0, 0, 0, 0, 0, 0⟩ m

/-- Accumulation over the per-user `(item, rating)` baskets. -/
def accumP (baskets : List (List (ℤ × ℚ))) : List ((ℤ × ℤ) × AccP) :=
  baskets.foldl
    (fun m basket =>
      (pairsOf basket).foldl
        (fun acc p => updatePairP acc p.1.1 p.2.1 p.1.2 p.2.2) m)
    []

/-- `denX = sumX2 - sumX*sumX/n` of the Pearson Top-K loop. -/
def pearsonDenX (t : AccP) : ℚ := t.sumX2 - t.sumX * t.sumX / (t.n : ℚ)

/-- `denY = sumY2 - sumY*sumY/n` of the Pearson Top-K loop. -/
def pearsonDenY (t : AccP) : ℚ := t.sumY2 - t.sumY * t.sumY / (t.n : ℚ)

/-- `num = sumXY - sumX*sumY/n` of the Pearson Top-K loop. -/
def pearsonNum (t : AccP) : ℚ := t.sumXY - t.sumX * t.sumY / (t.n : ℚ)

/-- The per-entry filter-and-score of the item-based Pearson Top-K loop:
reject if `n < minCo` or `denX <= 0` or `denY <= 0`, then keep
`num / (sqrt(denX) * sqrt(denY))` unless NaN or Inf; with strictly positive
denominators the exact quotient is finite, so the NaN/Inf guard passes.
There is no sign test on the score. -/
def pearsonScoreEntry (minCo : ℕ) (t : AccP) : Option ℚ :=
  if t.n < minCo then none
  else if pearsonDenX t ≤ 0 ∨ pearsonDenY t ≤ 0 then none
  else some (pearsonNum t / (ratSqrt (pearsonDenX t) * ratSqrt (pearsonDenY t)))

/-- Candidate list of the item-based Pearson scorer for outer key `i`. -/
def pearsonCandsFor (minCo : ℕ) (m : List ((ℤ × ℤ) × AccP)) (i : ℤ) :
    List Cand :=
  m.filterMap (fun e =>
    if e.1.1 = i then (pearsonScoreEntry minCo e.2).map (Cand.mk e.1.2) else none)

/-- The triplet-reading loop shared by the item-based Pearson and cosine
(`user filter, flush on user change, then item filter, then append
(i, r)`); block batching only partitions the basket stream and is content
irrelevant. -/
def valBasketsLoop (pu pi : ℤ) :
    List Triplet → ℤ → List (ℤ × ℚ) → List (List (ℤ × ℚ))
  | [], _, items => if items.isEmpty then [] else [items]
  | t :: rest, lastU, items =>
    if keepByPct t.u pu then
      if lastU = -1 then
        if keepByPct t.i pi then valBasketsLoop pu pi rest t.u (items ++ [(t.i, t.r)])
        else valBasketsLoop pu pi rest t.u items
      else if t.u ≠ lastU then
        if items.isEmpty then
          valBasketsLoop pu pi rest t.u (if keepByPct t.i pi then [(t.i, t.r)] else [])
        else
          items :: valBasketsLoop pu pi rest t.u (if keepByPct t.i pi then [(t.i, t.r)] else [])
      else
        if keepByPct t.i pi then valBasketsLoop pu pi rest lastU (items ++ [(t.i, t.r)])
        else valBasketsLoop pu pi rest lastU items
    else
      if lastU ≠ -1 ∧ t.u ≠ lastU then
        if items.isEmpty then valBasketsLoop pu pi rest t.u []
        else items :: valBasketsLoop pu pi rest t.u []
      else valBasketsLoop pu pi rest lastU items

/-- Per-user `(item, rating)` baskets from the triplet file. -/
def valBaskets (pu pi : ℤ) (rows : List Triplet) : List (List (ℤ × ℚ)) :=
  valBasketsLoop pu pi rows (-1) []

/-- Candidate-level pipeline of `runItemBasedPearsonConcurrent`. -/
def pearsonCands (minCo : ℕ) (pu pi : ℤ) (rows : List Triplet) (i : ℤ) :
    List Cand :=
  pearsonCandsFor minCo (accumP (valBaskets pu pi rows)) i

/-! ## Jaccard, item-based, sequential (`cmd/algorithms/jaccard.go`)

`runItemJaccard` accumulates canonical pairs exactly like the concurrent
variant, but its scoring loop emits *two* candidates per surviving pair:
`out[i] <- (j, sim)` and `out[j] <- (i, sim)`. -/

/-- Emission of one accumulated entry of the sequential item-based Jaccard
scoring loop (`kp` decoded to the canonical `(i, j)`). -/
def seqEmitEntry (minCo : ℕ) (deg : ℤ → ℕ) (e : (ℤ × ℤ) × ℕ) :
    List (ℤ × Cand) :=
  if e.2 < minCo then []
  else if deg e.1.1 = 0 ∨ deg e.1.2 = 0 then []
  else if (deg e.1.1 : ℤ) + (deg e.1.2 : ℤ) - (e.2 : ℤ) ≤ 0 then []
  else
    [(e.1.1, ⟨e.1.2, (e.2 : ℚ) / ((deg e.1.1 : ℚ) + (deg e.1.2 : ℚ) - (e.2 : ℚ))⟩),
     (e.1.2, ⟨e.1.1, (e.2 : ℚ) / ((deg e.1.1 : ℚ) + (deg e.1.2 : ℚ) - (e.2 : ℚ))⟩)]

/-- All `(row, candidate)` emissions of the sequential item-based Jaccard
scorer (the NaN/Inf guard passes: the union is positive, so the exact
quotient is finite). -/
def seqEmit (minCo : ℕ) (deg : ℤ → ℕ) (co : List ((ℤ × ℤ) × ℕ)) :
    List (ℤ × Cand) :=
  co.flatMap (seqEmitEntry minCo deg)

/-! ## Sparse matrix loader (`readInt64` / `readInt32`)

Source: the binary readers shared by the user-based variants
(`cmd/concurrent/cosine_concurrent.go` lines 611-646 and the identical
copies elsewhere).  A blob is a byte list; each reader derives the element
count as `len(b) / width` by integer division and decodes little-endian. -/

/-- `binary.LittleEndian.Uint64(b[off:])`. -/
def leUint64 (bs : List ℕ) (off : ℕ) : ℕ :=
  (List.range 8).foldl (fun acc k => acc + (bs.getD (off + k) 0 % 256) <<< (8 * k)) 0

/-- `binary.LittleEndian.Uint32(b[off:])`. -/
def leUint32 (bs : List ℕ) (off : ℕ) : ℕ :=
  (List.range 4).foldl (fun acc k => acc + (bs.getD (off + k) 0 % 256) <<< (8 * k)) 0

/-- `int64(v)` reinterpretation of an unsigned 64-bit value. -/
def toInt64 (v : ℕ) : ℤ := if v < 2 ^ 63 then (v : ℤ) else (v : ℤ) - 2 ^ 64

/-- `int32(v)` reinterpretation of an unsigned 32-bit value. -/
def toInt32 (v : ℕ) : ℤ := if v < 2 ^ 31 then (v : ℤ) else (v : ℤ) - 2 ^ 32

/-- `readInt64` from the source: `n := len(b) / 8`, then decode `n`
little-endian int64 values.  The function has no error result: the only
failure mode in the source is `os.ReadFile` itself failing (a panic), and
no length, NNZ or index validation is performed. -/
def readInt64Bytes (bs : List ℕ) : List ℤ :=
  (List.range (bs.length / 8)).map (fun i => toInt64 (leUint64 bs (i * 8)))

/-- `readInt32` from the source: `n := len(b) / 4`, then decode. -/
def readInt32Bytes (bs : List ℕ) : List ℤ :=
  (List.range (bs.length / 4)).map (fun i => toInt32 (leUint32 bs (i * 4)))

/-! ## Concrete inputs used by the theorems -/

/-- The end-to-end example of spec §8: U=3, I=3, triplets
`{(0,0,5),(0,1,3),(1,0,4),(1,2,2),(2,1,1),(2,2,5)}`. -/
def exRows : List Triplet :=
  [⟨0, 0, 5⟩, ⟨0, 1, 3⟩, ⟨1, 0, 4⟩, ⟨1, 2, 2⟩, ⟨2, 1, 1⟩, ⟨2, 2, 5⟩]

/-- One user rating items 0 and 1: produces the single canonical pair
(0, 1). -/
def exOnePair : List Triplet := [⟨0, 0, 5⟩, ⟨0, 1, 3⟩]

/-- Two users rating disjoint item pairs {0,1} and {2,3}: the Jaccard
output map has exactly the two keys 0 and 2. -/
def exTwoKeys : List Triplet := [⟨0, 0, 5⟩, ⟨0, 1, 3⟩, ⟨1, 2, 4⟩, ⟨1, 3, 2⟩]

/-- `itemUsers` content for a user-centered CSR in which users 0 and 1
both rated the single item 0, with centered ratings +1 and -1. -/
def exPosNeg : List (List (ℤ × ℚ)) := [[(0, 1), (1, -1)]]

/-! ## Helper lemmas -/

theorem hash32_depends_only_on_low32 {x y : ℤ}
    (h : x % 2 ^ 32 = y % 2 ^ 32) : hash32 x = hash32 y := by
  unfold hash32
  rw [h]

theorem alUpdate_mem {K V : Type} [DecidableEq K] {k : K} {f : V → V} {v0 : V}
    {m : List (K × V)} {e : K × V} (he : e ∈ alUpdate k f v0 m) :
    e.1 = k ∨ e ∈ m := by
  induction m with
  | nil =>
    simp only [alUpdate, List.mem_singleton] at he
    exact Or.inl (by rw [he])
  | cons a rest ih =>
    unfold alUpdate at he
    split at he
    · rcases List.mem_cons.mp he with h | h
      · exact Or.inl (by rw [h])
      · exact Or.inr (List.mem_cons_of_mem _ h)
    · rcases List.mem_cons.mp he with h | h
      · exact Or.inr (h ▸ List.mem_cons_self a rest)
      · rcases ih h with h1 | h1
        · exact Or.inl h1
        · exact Or.inr (List.mem_cons_of_mem _ h1)

theorem updatePairJ_key_lt {m : List ((ℤ × ℤ) × ℕ)}
    (h : ∀ e ∈ m, e.1.1 < e.1.2) (ia ib : ℤ) :
    ∀ e ∈ updatePairJ m ia ib, e.1.1 < e.1.2 := by
  intro e he
  unfold updatePairJ at he
  split at he
  · exact h e he
  · rcases alUpdate_mem he with hk | hm
    · rw [hk]
      unfold canonPair
      split
      · simpa using by omega
      · omega
    · exact h e hm

theorem accumBasketJ_key_lt {m : List ((ℤ × ℤ) × ℕ)}
    (h : ∀ e ∈ m, e.1.1 < e.1.2) (basket : List ℤ) :
    ∀ e ∈ accumBasketJ m basket, e.1.1 < e.1.2 := by
  unfold accumBasketJ
  generalize pairsOf basket = ps
  induction ps generalizing m with
  | nil => exact h
  | cons p ps ih => exact ih (updatePairJ_key_lt h p.1 p.2)

theorem accumJ_key_lt (baskets : List (List ℤ)) :
    ∀ e ∈ accumJ baskets, e.1.1 < e.1.2 := by
  unfold accumJ
  have hgen : ∀ (m : List ((ℤ × ℤ) × ℕ)), (∀ e ∈ m, e.1.1 < e.1.2) →
      ∀ e ∈ baskets.foldl accumBasketJ m, e.1.1 < e.1.2 := by
    induction baskets with
    | nil => intro m hm; exact hm
    | cons b bs ih => intro m hm; exact ih _ (accumBasketJ_key_lt hm b)
  exact hgen [] (by intro e he; cases he)

theorem range64_eq : List.range 64 =
    [0, 1, 2, 3, 4, 5, 6, 7, 8, 9, 10, 11, 12, 13, 14, 15, 16, 17, 18, 19,
     20, 21, 22, 23, 24, 25, 26, 27, 28, 29, 30, 31, 32, 33, 34, 35, 36, 37,
     38, 39, 40, 41, 42, 43, 44, 45, 46, 47, 48, 49, 50, 51, 52, 53, 54, 55,
     56, 57, 58, 59, 60, 61, 62, 63] := rfl

theorem jacCandsFor_key_lt (minCo shrink : ℕ) (cnt : ℤ → ℕ)
    (m : List ((ℤ × ℤ) × ℕ)) (i : ℤ) (c : Cand)
    (hm : ∀ e ∈ m, e.1.1 < e.1.2) (hc : c ∈ jacCandsFor minCo shrink cnt m i) :
    i < c.j := by
  unfold jacCandsFor at hc
  split at hc
  · cases hc
  obtain ⟨e, he, heq⟩ := List.mem_filterMap.mp hc
  split at heq
  · rename_i hkey
    obtain ⟨s', _, hcand⟩ := Option.map_eq_some'.mp heq
    have hlt := hm e he
    rw [← hcand, ← hkey]
    exact hlt
  · cases heq

theorem jacOutShardedFor_key_lt (minCo shrink : ℕ) (cnt : ℤ → ℕ)
    (acc : List ((ℤ × ℤ) × ℕ)) (i : ℤ) (c : Cand)
    (hacc : ∀ e ∈ acc, e.1.1 < e.1.2)
    (hc : c ∈ jacOutShardedFor minCo shrink cnt acc i) : i < c.j := by
  unfold jacOutShardedFor at hc
  have hstep : ∀ (l : List ℕ) (out0 : List Cand), (∀ c0 ∈ out0, i < c0.j) →
      ∀ c0 ∈ l.foldl
        (fun out s =>
          if (jacCandsFor minCo shrink cnt (shardMapJ acc s) i).isEmpty then out
          else jacCandsFor minCo shrink cnt (shardMapJ acc s) i) out0,
      i < c0.j := by
    intro l
    induction l with
    | nil => intro out0 h0 c0 hc0; exact h0 c0 (by simpa using hc0)
    | cons s rest ih =>
      intro out0 h0
      rw [List.foldl_cons]
      apply ih
      intro c0 hc0
      split at hc0
      · exact h0 c0 hc0
      · refine jacCandsFor_key_lt minCo shrink cnt _ i c0 ?_ hc0
        intro e he
        unfold shardMapJ at he
        exact hacc e (List.mem_of_mem_filter he)
  exact hstep (List.range 64) [] (by intro c0 hc0; cases hc0) c hc

/-! ## Claim theorems -/

/-- C8: for every identifier `id` and percentage `p ∈ [0, 100]`, the
deterministic sampler admits `id` iff `hash32 id mod 100 < p`, where
`hash32` is the 32-bit FNV-1a hash of the four little-endian bytes of
`id`; the decision is a pure function of `(id, p)`, `p = 100` admits every
id and `p = 0` admits none. -/
theorem keepByPct_hash_mod_spec (id p : ℤ) (h0 : 0 ≤ p) (h1 : p ≤ 100) :
    (keepByPct id p = true ↔ ((hash32 id % 100 : ℕ) : ℤ) < p)
    ∧ keepByPct id 100 = true ∧ keepByPct id 0 = false := by
  refine ⟨?_, by simp [keepByPct], by simp [keepByPct]⟩
  unfold keepByPct
  rcases lt_or_le p 100 with hp | hp
  · rw [if_neg (by omega)]
    rcases lt_or_le 0 p with hp0 | hp0
    · rw [if_neg (by omega)]
      simp
    · rw [if_pos (by omega)]
      constructor
      · intro h; cases h
      · intro h
        have hp0' : p = 0 := le_antisymm hp0 h0
        have : (0 : ℤ) ≤ ((hash32 id % 100 : ℕ) : ℤ) := Int.natCast_nonneg _
        omega
  · rw [if_pos (by omega)]
    have hlt : hash32 id % 100 < 100 := Nat.mod_lt _ (by norm_num)
    have hp' : p = 100 := le_antisymm h1 hp
    constructor
    · intro _
      omega
    · intro _
      rfl

/-- Witness for C8 at `id = 7`, `p = 50`. -/
theorem keepByPct_hash_mod_spec_witness :
    (keepByPct 7 50 = true ↔ ((hash32 7 % 100 : ℕ) : ℤ) < 50)
    ∧ keepByPct 7 100 = true ∧ keepByPct 7 0 = false :=
  keepByPct_hash_mod_spec 7 50 (by norm_num) (by norm_num)

/-- C10: `keepByPct` totalises out-of-range percentages: any `pct ≥ 100`
admits every id and any `pct ≤ 0` (negatives included) rejects every id,
independently of the hash; and the decision depends only on the low 32
bits of the identifier, so identifiers congruent modulo `2^32` always
receive the same decision. -/
theorem keepByPct_total_and_low32 (id id2 p : ℤ) :
    (100 ≤ p → keepByPct id p = true)
    ∧ (p ≤ 0 → keepByPct id p = false)
    ∧ (id % 2 ^ 32 = id2 % 2 ^ 32 → keepByPct id p = keepByPct id2 p) := by
  refine ⟨fun h => by simp [keepByPct, h], fun h => ?_, fun h => ?_⟩
  · unfold keepByPct
    rcases lt_or_le p 100 with hp | hp
    · rw [if_neg (by omega), if_pos h]
    · omega
  · unfold keepByPct
    rw [hash32_depends_only_on_low32 h]

/-- Witness for C10 at `p = 250`, `p = -3` and the congruent pair
`(5, 5 + 2^32)`. -/
theorem keepByPct_total_and_low32_witness :
    keepByPct 5 250 = true ∧ keepByPct 5 (-3) = false
    ∧ keepByPct 5 17 = keepByPct (5 + 2 ^ 32) 17 :=
  ⟨(keepByPct_total_and_low32 5 5 250).1 (by norm_num),
   (keepByPct_total_and_low32 5 5 (-3)).2.1 (by norm_num),
   (keepByPct_total_and_low32 5 (5 + 2 ^ 32) 17).2.2 (by decide)⟩

/-- C9: when `shrink > 0` the finalised score is the raw score times
`n / (n + shrink)` (with `shrink = 0` the raw score passes unchanged), and
for a fixed positive raw score and fixed positive shrink the finalised
score is strictly increasing in `n`; with raw score 1 and `shrink = 3`:
`n = 1` gives 0.25 and `n = 9` gives 0.75. -/
theorem applyShrink_spec (sim : ℚ) (n1 n2 lam : ℕ)
    (hpos : 0 < sim) (hlam : 0 < lam) (hlt : n1 < n2) :
    applyShrink sim n1 lam = sim * ((n1 : ℚ) / ((n1 : ℚ) + (lam : ℚ)))
    ∧ applyShrink sim n1 0 = sim
    ∧ applyShrink sim n1 lam < applyShrink sim n2 lam
    ∧ applyShrink 1 1 3 = 1 / 4 ∧ applyShrink 1 9 3 = 3 / 4 := by
  refine ⟨by rw [applyShrink, if_pos hlam], by rw [applyShrink, if_neg (by omega)],
    ?_, by norm_num [applyShrink], by norm_num [applyShrink]⟩
  have hl : (0 : ℚ) < (lam : ℚ) := by exact_mod_cast hlam
  have hn : (n1 : ℚ) < (n2 : ℚ) := by exact_mod_cast hlt
  have hn1 : (0 : ℚ) ≤ (n1 : ℚ) := Nat.cast_nonneg n1
  have hn2 : (0 : ℚ) ≤ (n2 : ℚ) := Nat.cast_nonneg n2
  have h1 : (0 : ℚ) < (n1 : ℚ) + (lam : ℚ) := by linarith
  have h2 : (0 : ℚ) < (n2 : ℚ) + (lam : ℚ) := by linarith
  unfold applyShrink
  rw [if_pos hlam, if_pos hlam]
  refine mul_lt_mul_of_pos_left ?_ hpos
  rw [div_lt_div_iff₀ h1 h2]
  nlinarith [mul_pos (sub_pos.mpr hn) hl]

/-- Witness for C9: the shrinkage factor is strictly monotone from
`n = 1` to `n = 9` at `shrink = 3`. -/
theorem applyShrink_spec_witness : applyShrink 1 1 3 < applyShrink 1 9 3 :=
  (applyShrink_spec 1 1 9 3 (by norm_num) (by norm_num) (by norm_num)).2.2.1

/-- C7: every pair the §8 run accumulates does score
`inter / (degI + degJ - inter) = 1/3` and pair (0, 1) passes every filter of
the scorer, but the per-shard `out[i] = cands` assignment of PASO 3
overwrites: pair (0, 1) lands in shard 2 and pair (0, 2) in shard 56, so
shard 56's scan overwrites item 0's list and the final output is
`[(2, 1/3)]` for item 0 - the pair (0, 1) is silently dropped, contradicting
the claimed (and spec §8) item-0 list `[(1, 1/3), (2, 1/3)]`. -/
theorem jaccard_sharded_drops_overwritten_pair :
    jacScorePair 1 0 2 2 1 = some (1/3)
    ∧ shardIndexJ 0 1 = 2 ∧ shardIndexJ 0 2 = 56
    ∧ jacOutSharded 1 0 100 100 exRows 0 = [⟨2, 1/3⟩]
    ∧ jacOutSharded 1 0 100 100 exRows 1 = [⟨2, 1/3⟩]
    ∧ jacOutSharded 1 0 100 100 exRows 2 = [] := by
  have hacc : accumJ (jacBaskets 100 100 exRows) =
      [((0, 1), 1), ((0, 2), 1), ((1, 2), 1)] := by decide
  have hi1 : shardIndexJ 0 1 = 2 := by decide
  have hi2 : shardIndexJ 0 2 = 56 := by decide
  have hi3 : shardIndexJ 1 2 = 35 := by decide
  have hc0 : itemCount 100 100 exRows 0 = 2 := by decide
  have hc1 : itemCount 100 100 exRows 1 = 2 := by decide
  have hc2 : itemCount 100 100 exRows 2 = 2 := by decide
  refine ⟨by norm_num [jacScorePair, applyShrink], hi1, hi2, ?_, ?_, ?_⟩ <;>
    (unfold jacOutSharded jacOutShardedFor
     rw [hacc, range64_eq]
     norm_num [shardMapJ, hi1, hi2, hi3, hc0, hc1, hc2, jacCandsFor, jacScorePair,
       applyShrink, List.foldl_cons, List.foldl_nil, List.filter, List.filterMap,
       List.isEmpty])

/-- C6: the item-based Pearson scorer emits a pair only when its
co-occurrence count reaches `min_co` and both variance denominators
`sumX2 - sumX^2/n` and `sumY2 - sumY^2/n` are strictly positive
(denominators `≤ 0` are rejected); and on the §8 input, where every item
pair is co-rated by exactly one user, both denominators are 0 for every
pair, no pair survives, and every candidate list is empty - the output
CSV is header-only. -/
theorem pearson_filters_and_header_only (minCo : ℕ) (t : AccP) (s : ℚ)
    (h : pearsonScoreEntry minCo t = some s) :
    (minCo ≤ t.n ∧ 0 < pearsonDenX t ∧ 0 < pearsonDenY t)
    ∧ (∀ i : ℤ, pearsonCands 1 100 100 exRows i = [])
    ∧ (∀ order : List ℤ, rowsOf order (pearsonCands 1 100 100 exRows) = []) := by
  have hall : ∀ i : ℤ, pearsonCands 1 100 100 exRows i = [] := by
    intro i
    have hacc : accumP (valBaskets 100 100 exRows) =
        [((0, 1), ⟨5, 3, 25, 9, 15, 1⟩), ((0, 2), ⟨4, 2, 16, 4, 8, 1⟩),
         ((1, 2), ⟨1, 5, 1, 25, 5, 1⟩)] := by
      norm_num [accumP, valBaskets, valBasketsLoop, pairsOf, updatePairP,
        alUpdate, keepByPct, List.foldl, exRows]
    have e1 : pearsonScoreEntry 1 (⟨5, 3, 25, 9, 15, 1⟩ : AccP) = none := by
      norm_num [pearsonScoreEntry, pearsonDenX, pearsonDenY]
    have e2 : pearsonScoreEntry 1 (⟨4, 2, 16, 4, 8, 1⟩ : AccP) = none := by
      norm_num [pearsonScoreEntry, pearsonDenX, pearsonDenY]
    have e3 : pearsonScoreEntry 1 (⟨1, 5, 1, 25, 5, 1⟩ : AccP) = none := by
      norm_num [pearsonScoreEntry, pearsonDenX, pearsonDenY]
    unfold pearsonCands
    rw [hacc]
    simp [pearsonCandsFor, e1, e2, e3]
  refine ⟨?_, hall, ?_⟩
  · unfold pearsonScoreEntry at h
    split at h
    · cases h
    split at h
    · cases h
    rename_i h1 h2
    push_neg at h2
    exact ⟨by omega, h2.1, h2.2⟩
  · intro order
    induction order with
    | nil => rfl
    | cons x xs ih =>
      simp only [rowsOf, List.flatMap_cons] at ih ⊢
      rw [hall x]
      simpa [rowsOf] using ih

/-- Witness for C6: the four-user pair with statistics
`(sumX, sumY, sumX2, sumY2, sumXY, n) = (8, 8, 20, 20, 12, 4)` is emitted
at `min_co = 3` (score exactly -1), so both denominators are strictly
positive there. -/
theorem pearson_filters_and_header_only_witness :
    ((3 : ℕ) ≤ (AccP.mk 8 8 20 20 12 4).n
      ∧ 0 < pearsonDenX ⟨8, 8, 20, 20, 12, 4⟩
      ∧ 0 < pearsonDenY ⟨8, 8, 20, 20, 12, 4⟩)
    ∧ (∀ i : ℤ, pearsonCands 1 100 100 exRows i = [])
    ∧ (∀ order : List ℤ, rowsOf order (pearsonCands 1 100 100 exRows) = []) :=
  pearson_filters_and_header_only 3 ⟨8, 8, 20, 20, 12, 4⟩ (-1)
    (by
      have h4 : Nat.sqrt 4 = 2 := by norm_num
      have h5 : (4 : ℤ).toNat = 4 := rfl
      norm_num [pearsonScoreEntry, pearsonDenX, pearsonDenY, pearsonNum, ratSqrt,
        h4, h5])

/-- C1 counterexample: on a user-centered CSR where users 0 and 1 rate the
single item 0 with centered values +1 and -1, the user-based cosine scorer
(min_co = 1) emits the candidate (0, 1, -1): a score `≤ 0` reaches the
output, so the claimed uniform rejection of non-positive scores is false. -/
theorem cosine_user_emits_negative_score :
    cosineCandsFor 1 (accumC exPosNeg) 0 = [⟨1, -1⟩] ∧ ((-1 : ℚ) ≤ 0) := by
  refine ⟨?_, by norm_num⟩
  norm_num [cosineCandsFor, accumC, exPosNeg, pairsOf, updatePairC, alUpdate,
    cosineScoreEntry, ratSqrt, List.foldl, List.filterMap]

/-- C1 (amended): the `≤ 0` rejection is not uniform across the shipping
scorers.  The item-based Jaccard scorer and the optimized shrinkage
variant of the item-based cosine scorer do reject non-positive
similarities, and (the accumulator guaranteeing at least one
co-occurrence) every score they emit is strictly positive; but the cited
user-based cosine and item-based Pearson concurrent scorers filter only
NaN/Inf: any entry passing their support and denominator checks is
emitted with its score regardless of sign. -/
theorem positivity_filter_not_uniform (minCo shrink cI cJ n : ℕ) (s : ℚ)
    (mc : ℕ) (t : AccC) (mcs shs c : ℕ) (nI nJ dot scs : ℚ)
    (mcp : ℕ) (tp : AccP)
    (hj : jacScorePair minCo shrink cI cJ n = some s)
    (hc : ¬ (t.c < mc ∨ t.n2a = 0 ∨ t.n2b = 0))
    (hcs : cosineShrinkScoreEntry mcs shs nI nJ dot c = some scs)
    (hcpos : 0 < c)
    (hp : ¬ tp.n < mcp)
    (hpd : ¬ (pearsonDenX tp ≤ 0 ∨ pearsonDenY tp ≤ 0)) :
    0 < s
    ∧ cosineScoreEntry mc t = some (t.dot / (ratSqrt t.n2a * ratSqrt t.n2b))
    ∧ 0 < scs
    ∧ pearsonScoreEntry mcp tp =
        some (pearsonNum tp / (ratSqrt (pearsonDenX tp) * ratSqrt (pearsonDenY tp))) := by
  refine ⟨?_, by rw [cosineScoreEntry, if_neg hc], ?_,
    by rw [pearsonScoreEntry, if_neg hp, if_neg hpd]⟩
  · unfold jacScorePair at hj
    split at hj
    · cases hj
    split at hj
    · cases hj
    split at hj
    · cases hj
    split at hj
    · cases hj
    rename_i h1 h2 h3 h4
    have hs := Option.some_injective _ hj
    rw [← hs]
    push_neg at h4
    have hn : 0 < (n : ℚ) := by
      rcases Nat.eq_zero_or_pos n with h0 | h0
      · subst h0; norm_num at h4
      · exact_mod_cast h0
    by_cases hsh : 0 < shrink
    · rw [applyShrink, if_pos hsh]
      have hd : 0 < (n : ℚ) + (shrink : ℚ) := by
        have : (0 : ℚ) ≤ (shrink : ℚ) := Nat.cast_nonneg shrink
        linarith
      exact mul_pos h4 (div_pos hn hd)
    · rw [applyShrink, if_neg hsh]
      exact h4
  · unfold cosineShrinkScoreEntry at hcs
    split at hcs
    · cases hcs
    split at hcs
    · cases hcs
    split at hcs
    · cases hcs
    rename_i h1 h2 h3
    have hs := Option.some_injective _ hcs
    rw [← hs]
    push_neg at h3
    have hcq : 0 < (c : ℚ) := by exact_mod_cast hcpos
    by_cases hsh : 0 < shs
    · rw [applyShrink, if_pos hsh]
      have hd : 0 < (c : ℚ) + (shs : ℚ) := by
        have : (0 : ℚ) ≤ (shs : ℚ) := Nat.cast_nonneg shs
        linarith
      exact mul_pos h3 (div_pos hcq hd)
    · rw [applyShrink, if_neg hsh]
      exact h3

/-- Witness for C1 (amended): a fully overlapping Jaccard pair scores
1 > 0; the user-based cosine entry `(dot, n2a, n2b, c) = (-1, 1, 1, 1)` is
emitted at `min_co = 1` with its negative score intact; a shrinkage-cosine
entry with positive dot is emitted with score 1 > 0; and the Pearson
entry `(8, 8, 20, 20, 12, 4)` (score exactly -1) is emitted at
`min_co = 3`. -/
theorem positivity_filter_not_uniform_witness :
    0 < (1 : ℚ)
    ∧ cosineScoreEntry 1 (AccC.mk (-1) 1 1 1) =
        some ((-1 : ℚ) / (ratSqrt 1 * ratSqrt 1))
    ∧ 0 < (1 : ℚ)
    ∧ pearsonScoreEntry 3 (AccP.mk 8 8 20 20 12 4) =
        some (pearsonNum ⟨8, 8, 20, 20, 12, 4⟩ /
          (ratSqrt (pearsonDenX ⟨8, 8, 20, 20, 12, 4⟩)
            * ratSqrt (pearsonDenY ⟨8, 8, 20, 20, 12, 4⟩))) :=
  positivity_filter_not_uniform 1 0 1 1 1 1 1 ⟨-1, 1, 1, 1⟩ 3 0 3 1 1 1 1
    3 ⟨8, 8, 20, 20, 12, 4⟩
    (by norm_num [jacScorePair, applyShrink]) (by norm_num)
    (by norm_num [cosineShrinkScoreEntry, applyShrink]) (by norm_num)
    (by norm_num) (by norm_num [pearsonDenX, pearsonDenY])

/-- C5 counterexample: the 9-byte blob `00 .. 00 07` - length not a
multiple of 8, with a non-zero trailing byte - is decoded by `readInt64`
into the one-element array `[0]` with no error: the trailing byte is
silently dropped and no `InvalidFormat` failure exists anywhere in the
loader. -/
theorem readInt64_accepts_ragged_blob :
    (List.replicate 8 0 ++ [7]).length % 8 ≠ 0
    ∧ readInt64Bytes (List.replicate 8 0 ++ [7]) = [0] := by
  exact ⟨by decide, by decide⟩

/-- C5 (amended): the binary readers never produce a format error: the
element count is `len / width` by truncating integer division, so a blob
with up to `width - 1` trailing garbage bytes decodes to exactly the same
view as its well-formed prefix, and neither the NNZ/row-pointer
consistency nor the column-index bound is ever checked (the readers'
only failure mode is the file read itself). -/
theorem readers_truncate_and_ignore_trailing (bs rs : List ℕ)
    (h8 : bs.length % 8 = 0) (hr : rs.length < 8) :
    (readInt64Bytes bs).length = bs.length / 8
    ∧ (readInt32Bytes bs).length = bs.length / 4
    ∧ readInt64Bytes (bs ++ rs) = readInt64Bytes bs := by
  refine ⟨by simp [readInt64Bytes], by simp [readInt32Bytes], ?_⟩
  unfold readInt64Bytes
  have hlen : (bs ++ rs).length / 8 = bs.length / 8 := by
    rw [List.length_append]
    omega
  rw [hlen]
  apply List.map_congr_left
  intro idx hidx
  have hidx2 : idx < bs.length / 8 := List.mem_range.mp hidx
  have hgen : ∀ (ks : List ℕ) (a : ℕ), (∀ k ∈ ks, idx * 8 + k < bs.length) →
      ks.foldl (fun acc k => acc + ((bs ++ rs).getD (idx * 8 + k) 0 % 256) <<< (8 * k)) a
        = ks.foldl (fun acc k => acc + (bs.getD (idx * 8 + k) 0 % 256) <<< (8 * k)) a := by
    intro ks
    induction ks with
    | nil => intro a _; rfl
    | cons k ks ih =>
      intro a hks
      rw [List.foldl_cons, List.foldl_cons,
        List.getD_append bs rs 0 (idx * 8 + k) (hks k (List.mem_cons_self k ks))]
      exact ih _ (fun k2 hk2 => hks k2 (List.mem_cons_of_mem k hk2))
  have hle : leUint64 (bs ++ rs) (idx * 8) = leUint64 bs (idx * 8) := by
    unfold leUint64
    exact hgen (List.range 8) 0 (fun k hk => by
      have hk8 := List.mem_range.mp hk
      omega)
  rw [hle]

/-- Witness for C5 (amended): the well-formed 8-byte zero blob and the
trailing byte 7. -/
theorem readers_truncate_and_ignore_trailing_witness :
    (readInt64Bytes (List.replicate 8 0)).length = (List.replicate 8 0).length / 8
    ∧ (readInt32Bytes (List.replicate 8 0)).length = (List.replicate 8 0).length / 4
    ∧ readInt64Bytes (List.replicate 8 0 ++ [7]) = readInt64Bytes (List.replicate 8 0) :=
  readers_truncate_and_ignore_trailing (List.replicate 8 0) [7] (by decide) (by decide)

/-- C3 counterexample: the candidate list `[(j=1, s=1), (j=2, s=1)]` may be
returned by `topK` as `[(j=2, s=1), (j=1, s=1)]` (`sort.Slice` is unstable
and compares only scores, and its input arrives in map iteration order),
which violates the claimed ascending-id tie-break. -/
theorem topK_tie_not_id_ordered :
    topKRel [⟨1, 1⟩, ⟨2, 1⟩] [⟨2, 1⟩, ⟨1, 1⟩] 2
    ∧ ¬ specOrdered [Cand.mk 2 1, Cand.mk 1 1] := by
  constructor
  · exact ⟨[⟨2, 1⟩, ⟨1, 1⟩], List.Perm.swap _ _ _, by simp [scoreSorted], rfl⟩
  · simp [specOrdered]

/-- C3 (amended): every list `topK` can return is sorted by non-increasing
score, has at most `k` elements drawn from the input, and its first
element (for `k = 1`, the single retained neighbor) has maximal score
among all candidates; the order of candidates with equal scores is not
specified. -/
theorem topK_sorted_and_bounded (input output : List Cand) (k : ℕ)
    (h : topKRel input output k) :
    scoreSorted output ∧ output.length ≤ k ∧ (∀ c ∈ output, c ∈ input)
    ∧ (∀ c, output.head? = some c → ∀ d ∈ input, d.s ≤ c.s) := by
  obtain ⟨p, hperm, hsort, rfl⟩ := h
  refine ⟨hsort.take k, ?_, ?_, ?_⟩
  · rw [List.length_take]
    exact min_le_left _ _
  · intro c hc
    exact hperm.mem_iff.mpr (List.mem_of_mem_take hc)
  · intro c hc d hd
    have hdp : d ∈ p := hperm.subset hd
    cases p with
    | nil => simp at hc
    | cons x t =>
      cases k with
      | zero => simp at hc
      | succ k =>
        rw [List.take_succ_cons, List.head?_cons, Option.some_inj] at hc
        subst hc
        have hpw := (List.chain'_iff_pairwise).mp hsort
        rcases List.mem_cons.mp hdp with h0 | hdt
        · exact le_of_eq (by rw [h0])
        · exact (List.pairwise_cons.mp hpw).1 d hdt

/-- Witness for C3 (amended), on the tied candidate pair at `k = 1`. -/
theorem topK_sorted_and_bounded_witness :
    scoreSorted [Cand.mk 2 1] ∧ [Cand.mk 2 1].length ≤ 1
    ∧ (∀ c ∈ [Cand.mk 2 1], c ∈ [Cand.mk 1 1, Cand.mk 2 1])
    ∧ (∀ c, [Cand.mk 2 1].head? = some c →
        ∀ d ∈ [Cand.mk 1 1, Cand.mk 2 1], d.s ≤ c.s) :=
  topK_sorted_and_bounded [Cand.mk 1 1, Cand.mk 2 1] [Cand.mk 2 1] 1
    ⟨[Cand.mk 2 1, Cand.mk 1 1], List.Perm.swap _ _ _, by simp [scoreSorted], rfl⟩

/-- C2 counterexample: on the two-key input `exTwoKeys` the concurrent
Jaccard output map has exactly the keys 0 and 2; enumerating them as
`[0, 2]` and as `[2, 0]` - both permutations of the key set, and Go map
iteration order is unspecified - yields different CSV row sequences, and
the second is not grouped by ascending outer key.  Byte-identical,
ascending-grouped output across runs is therefore not guaranteed. -/
theorem writer_rows_depend_on_key_order :
    List.Perm ([0, 2] : List ℤ) [2, 0]
    ∧ rowsOf [0, 2] (jacOutSharded 1 0 100 100 exTwoKeys)
        ≠ rowsOf [2, 0] (jacOutSharded 1 0 100 100 exTwoKeys)
    ∧ ¬ List.Chain' (· ≤ ·)
        ((rowsOf [2, 0] (jacOutSharded 1 0 100 100 exTwoKeys)).map Prod.fst) := by
  have hacc : accumJ (jacBaskets 100 100 exTwoKeys) =
      [((0, 1), 1), ((2, 3), 1)] := by decide
  have hi1 : shardIndexJ 0 1 = 2 := by decide
  have hi2 : shardIndexJ 2 3 = 60 := by decide
  have hc0 : itemCount 100 100 exTwoKeys 0 = 1 := by decide
  have hc1 : itemCount 100 100 exTwoKeys 1 = 1 := by decide
  have hc2 : itemCount 100 100 exTwoKeys 2 = 1 := by decide
  have hc3 : itemCount 100 100 exTwoKeys 3 = 1 := by decide
  have h0 : jacOutSharded 1 0 100 100 exTwoKeys 0 = [⟨1, 1⟩] := by
    unfold jacOutSharded jacOutShardedFor
    rw [hacc, range64_eq]
    norm_num [shardMapJ, hi1, hi2, hc0, hc1, hc2, hc3, jacCandsFor, jacScorePair,
      applyShrink, List.foldl_cons, List.foldl_nil, List.filter, List.filterMap,
      List.isEmpty]
  have h2 : jacOutSharded 1 0 100 100 exTwoKeys 2 = [⟨3, 1⟩] := by
    unfold jacOutSharded jacOutShardedFor
    rw [hacc, range64_eq]
    norm_num [shardMapJ, hi1, hi2, hc0, hc1, hc2, hc3, jacCandsFor, jacScorePair,
      applyShrink, List.foldl_cons, List.foldl_nil, List.filter, List.filterMap,
      List.isEmpty]
  refine ⟨List.Perm.swap _ _ _, ?_, ?_⟩
  · simp [rowsOf, h0, h2]
  · simp [rowsOf, h0, h2]

/-- C2 (amended): the claim fails twice over.  For a *fixed* per-key
retained-list function, permuting the writer's key enumeration permutes
the rows, so one run's rows are a permutation - not a byte-identical
copy - of another's; and the retained content itself is not
run-independent: when equal scores sit at the `k` boundary, `topK` may
retain either tied candidate (both outcomes are admissible executions of
the unstable sort), so even the row *multiset* can differ between runs. -/
theorem rows_order_and_tie_dependence (out : ℤ → List Cand) (o1 o2 : List ℤ)
    (h : o1.Perm o2) :
    (rowsOf o1 out).Perm (rowsOf o2 out)
    ∧ topKRel [Cand.mk 1 1, Cand.mk 2 1] [Cand.mk 1 1] 1
    ∧ topKRel [Cand.mk 1 1, Cand.mk 2 1] [Cand.mk 2 1] 1 :=
  ⟨h.flatMap_right _,
   ⟨[⟨1, 1⟩, ⟨2, 1⟩], List.Perm.refl _, by simp [scoreSorted], rfl⟩,
   ⟨[⟨2, 1⟩, ⟨1, 1⟩], List.Perm.swap _ _ _, by simp [scoreSorted], rfl⟩⟩

/-- Witness for C2 (amended) at the two concrete enumerations of
`exTwoKeys`'s output keys. -/
theorem rows_order_and_tie_dependence_witness :
    (rowsOf [0, 2] (jacOutSharded 1 0 100 100 exTwoKeys)).Perm
      (rowsOf [2, 0] (jacOutSharded 1 0 100 100 exTwoKeys))
    ∧ topKRel [Cand.mk 1 1, Cand.mk 2 1] [Cand.mk 1 1] 1
    ∧ topKRel [Cand.mk 1 1, Cand.mk 2 1] [Cand.mk 2 1] 1 :=
  rows_order_and_tie_dependence (jacOutSharded 1 0 100 100 exTwoKeys) [0, 2] [2, 0]
    (List.Perm.swap _ _ _)

theorem seqEmitEntry_symm (minCo : ℕ) (deg : ℤ → ℕ) (e : (ℤ × ℤ) × ℕ)
    (a b : ℤ) (s : ℚ) (h : (a, Cand.mk b s) ∈ seqEmitEntry minCo deg e) :
    (b, Cand.mk a s) ∈ seqEmitEntry minCo deg e := by
  unfold seqEmitEntry at h ⊢
  split at h
  · cases h
  split at h
  · cases h
  split at h
  · cases h
  rename_i h1 h2 h3
  rw [if_neg h1, if_neg h2, if_neg h3]
  simp only [List.mem_cons, List.mem_singleton, Prod.mk.injEq, Cand.mk.injEq] at h ⊢
  rcases h with ⟨ha, hb, hs⟩ | ⟨⟨ha, hb, hs⟩ | hfalse⟩
  · exact Or.inr (Or.inl ⟨hb, ha, hs⟩)
  · exact Or.inl ⟨hb, ha, hs⟩
  · cases hfalse

/-- C4 counterexample: with one user rating items 0 and 1 (min_co = 1,
shrink = 0), the pair (0, 1) survives with score 1, yet the concurrent
Jaccard scorer fills only item 0's candidate list; item 1's list stays
empty - trivially short enough to hold another entry - so the claimed
second emission (a into b's list) never happens in the concurrent
scorer. -/
theorem conc_jaccard_one_direction :
    jacOutSharded 1 0 100 100 exOnePair 0 = [⟨1, 1⟩]
    ∧ jacOutSharded 1 0 100 100 exOnePair 1 = [] := by
  have hacc : accumJ (jacBaskets 100 100 exOnePair) = [((0, 1), 1)] := by decide
  have hi1 : shardIndexJ 0 1 = 2 := by decide
  have hc0 : itemCount 100 100 exOnePair 0 = 1 := by decide
  have hc1 : itemCount 100 100 exOnePair 1 = 1 := by decide
  constructor <;>
    (unfold jacOutSharded jacOutShardedFor
     rw [hacc, range64_eq]
     norm_num [shardMapJ, hi1, hc0, hc1, jacCandsFor, jacScorePair, applyShrink,
       List.foldl_cons, List.foldl_nil, List.filter, List.filterMap, List.isEmpty])

/-- C4 (amended): the *sequential* item-based Jaccard scorer emits the two
symmetric candidates per surviving pair, with the same score both ways;
the *concurrent* item-based Jaccard scorer emits at most one candidate
per surviving canonical pair - the higher id into the lower id's list,
and possibly none at all when a later shard's `out[i] = cands`
assignment overwrites the list holding the pair - so the mirror entry is
never produced and every candidate in its final output satisfies
`row id < neighbor id`. -/
theorem seq_both_directions_conc_lower_only (minCo : ℕ) (deg : ℤ → ℕ)
    (co : List ((ℤ × ℤ) × ℕ)) (a b : ℤ) (s : ℚ) (shrink : ℕ) (pu pi : ℤ)
    (rows : List Triplet) (i : ℤ) (c : Cand)
    (hmem : c ∈ jacOutSharded minCo shrink pu pi rows i) :
    ((a, Cand.mk b s) ∈ seqEmit minCo deg co
      ↔ (b, Cand.mk a s) ∈ seqEmit minCo deg co)
    ∧ i < c.j := by
  constructor
  · constructor <;>
      · intro h
        obtain ⟨e, he, hin⟩ := List.mem_flatMap.mp h
        exact List.mem_flatMap.mpr ⟨e, he, seqEmitEntry_symm minCo deg e _ _ s hin⟩
  · unfold jacOutSharded at hmem
    exact jacOutShardedFor_key_lt minCo shrink (itemCount pu pi rows)
      (accumJ (jacBaskets pu pi rows)) i c (accumJ_key_lt _) hmem

/-- Witness for C4 (amended): on `exOnePair` the emission (0, (1, 1)) of
the sequential scorer is mirrored by (1, (0, 1)), and the concurrent
sharded output's only candidate for key 0 has the larger neighbor id 1. -/
theorem seq_both_directions_conc_lower_only_witness :
    (((0 : ℤ), Cand.mk 1 1) ∈
        seqEmit 1 (itemCount 100 100 exOnePair) (accumJ (jacBaskets 100 100 exOnePair))
      ↔ ((1 : ℤ), Cand.mk 0 1) ∈
        seqEmit 1 (itemCount 100 100 exOnePair) (accumJ (jacBaskets 100 100 exOnePair)))
    ∧ (0 : ℤ) < (Cand.mk 1 1).j :=
  seq_both_directions_conc_lower_only 1 (itemCount 100 100 exOnePair)
    (accumJ (jacBaskets 100 100 exOnePair)) 0 1 1 0 100 100 exOnePair 0 (Cand.mk 1 1)
    (by
      have hacc : accumJ (jacBaskets 100 100 exOnePair) = [((0, 1), 1)] := by decide
      have hi1 : shardIndexJ 0 1 = 2 := by decide
      have hc0 : itemCount 100 100 exOnePair 0 = 1 := by decide
      have hc1 : itemCount 100 100 exOnePair 1 = 1 := by decide
      unfold jacOutSharded jacOutShardedFor
      rw [hacc, range64_eq]
      norm_num [shardMapJ, hi1, hc0, hc1, jacCandsFor, jacScorePair, applyShrink,
        List.foldl_cons, List.foldl_nil, List.filter, List.filterMap, List.isEmpty])

end PC3
